import Mathlib

set_option maxRecDepth 40000

/-
  Verification development for the NeuroAnalyst backend (src/app.py).

  Modelling conventions:
  * Python strings are modelled as `List Char`; Python `None` as `Option.none`.
  * The network (requests.get + BeautifulSoup parsing) is an oracle
    `web : List Char → Option FetchedDoc`; `none` covers timeouts, transport
    errors, non-200 statuses and HTML-parsing exceptions, all of which make
    `crawl_site` skip the page the same way.
  * `tldextract.extract(u).registered_domain` is an external library call,
    modelled as a parameter `ext : List Char → Option (List Char)`; `none`
    models the call raising (caught by the bare `except` in `same_domain`).
  * `urllib.parse.urljoin` and its helpers are translated from CPython 3.11
    (`/usr/lib/python3.11/urllib/parse.py`), the runtime the app targets.
    Exceptions (`ValueError` for invalid IPv6 netlocs) are modelled with
    `Except Unit`.  The NFKC check `_checknetloc` is approximated
    conservatively: any non-ASCII character in a netloc is treated as a parse
    error (CPython only raises for some such netlocs); every theorem below
    that assumes a successful parse only relies on ASCII netlocs, where the
    model is exact.
  * `datetime` timestamps are integers (minutes); `timedelta(hours=24)`
    becomes the constant `SESSION_TTL = 24 * 60`.  `datetime` arithmetic and
    comparison are linear, so the unit choice is irrelevant.
-/

-- ==========================================================
-- Basic string helpers (Python str methods on List Char)
-- ==========================================================

/-- Characters stripped by Python `str.strip()` (CPython whitespace set). -/
def pyIsSpace (c : Char) : Bool :=
  (0x09 ≤ c.toNat ∧ c.toNat ≤ 0x0D) ∨ (0x1C ≤ c.toNat ∧ c.toNat ≤ 0x1F) ∨
  c.toNat = 0x20 ∨ c.toNat = 0x85 ∨ c.toNat = 0xA0 ∨ c.toNat = 0x1680 ∨
  (0x2000 ≤ c.toNat ∧ c.toNat ≤ 0x200A) ∨ c.toNat = 0x2028 ∨
  c.toNat = 0x2029 ∨ c.toNat = 0x202F ∨ c.toNat = 0x205F ∨ c.toNat = 0x3000

/-- Python `s.strip()`. -/
def pyStrip (l : List Char) : List Char :=
  ((l.dropWhile pyIsSpace).reverse.dropWhile pyIsSpace).reverse

/-- Python `l.startswith(pre)`. -/
def listStartsWith (l pre : List Char) : Bool :=
  l.take pre.length = pre

/-- Python `s.split(sep, 1)[0]` paired with the remainder after the first
separator (empty if the separator is absent). -/
def splitFirst (sep : Char) (l : List Char) : List Char × List Char :=
  (l.takeWhile (· ≠ sep), (l.dropWhile (· ≠ sep)).drop 1)

/-- Python `s.split("#")[0]`. -/
def beforeHash (l : List Char) : List Char :=
  l.takeWhile (· ≠ '#')

/-- Python `s.split(sep)` (on a single-character separator). -/
def pySplit (sep : Char) : List Char → List (List Char)
  | [] => [[]]
  | c :: rest =>
    let r := pySplit sep rest
    if c = sep then [] :: r
    else (c :: r.headD []) :: r.tail

/-- Python `sep.join(pieces)` (single-character separator). -/
def pyJoin (sep : Char) : List (List Char) → List Char
  | [] => []
  | [p] => p
  | p :: ps => p ++ sep :: pyJoin sep ps

-- ==========================================================
-- urllib.parse model (CPython 3.11)
-- ==========================================================

/-- Result of `urllib.parse.urlsplit`. -/
structure SplitUrl where
  scheme : List Char
  netloc : List Char
  path : List Char
  query : List Char
  fragment : List Char
deriving DecidableEq, Repr

/-- Result of `urllib.parse.urlparse`. -/
structure ParseUrl where
  scheme : List Char
  netloc : List Char
  path : List Char
  params : List Char
  query : List Char
  fragment : List Char
deriving DecidableEq, Repr

/-- CPython `_UNSAFE_URL_BYTES_TO_REMOVE` removal (tab, CR, LF). -/
def removeUnsafeBytes (l : List Char) : List Char :=
  l.filter (fun c => ¬ (c = '\t' ∨ c = '\r' ∨ c = '\n'))

def isAsciiAlpha (c : Char) : Bool :=
  ('a' ≤ c ∧ c ≤ 'z') ∨ ('A' ≤ c ∧ c ≤ 'Z')

/-- CPython `scheme_chars`. -/
def isSchemeChar (c : Char) : Bool :=
  isAsciiAlpha c ∨ ('0' ≤ c ∧ c ≤ '9') ∨ c = '+' ∨ c = '-' ∨ c = '.'

/-- Scheme detection step of `urlsplit`: `i = url.find(':')`, accept when
`i > 0`, the first character is an ASCII letter and every character before
the colon is a scheme character; yields the lowered scheme and the rest. -/
def detectScheme (url : List Char) : Option (List Char × List Char) :=
  match url with
  | [] => none
  | c :: _ =>
    let pre := url.takeWhile (· ≠ ':')
    if pre.length < url.length ∧ pre ≠ [] ∧ isAsciiAlpha c ∧
        pre.all isSchemeChar then
      some (pre.map Char.toLower, url.drop (pre.length + 1))
    else
      none

/-- CPython `_splitnetloc(url, 2)` applied to `url.drop 2`: the netloc runs
until the first of `/`, `?`, `#`. -/
def splitNetlocAt (l : List Char) : List Char × List Char :=
  (l.takeWhile (fun c => ¬ (c = '/' ∨ c = '?' ∨ c = '#')),
   l.dropWhile (fun c => ¬ (c = '/' ∨ c = '?' ∨ c = '#')))

/-- Netloc validity: CPython raises `ValueError` on a `[`/`]` bracket
mismatch; the NFKC `_checknetloc` test is approximated by rejecting any
non-ASCII netloc (exact for ASCII netlocs). -/
def netlocOk (n : List Char) : Bool :=
  (('[' ∈ n) = (']' ∈ n)) ∧ n.all (fun c => c.toNat < 128)

/-- Scheme stage of `urlsplit`: detected scheme plus rest, or the default
scheme and the untouched url. -/
def schemeSplit (url1 ds : List Char) : List Char × List Char :=
  match detectScheme url1 with
  | some p => p
  | none => (ds, url1)

/-- Netloc stage of `urlsplit`: `if url[:2] == '//'` take the netloc. -/
def netlocSplit (rest : List Char) : List Char × List Char :=
  if rest.take 2 = ['/', '/'] then splitNetlocAt (rest.drop 2)
  else ([], rest)

/-- CPython 3.11 `urlsplit(url, default, allow_fragments=True)`;
`Except.error` models the `ValueError` raised on an invalid netloc. -/
def urlsplitE (url defaultScheme : List Char) : Except Unit SplitUrl :=
  let sr := schemeSplit (removeUnsafeBytes url) (removeUnsafeBytes defaultScheme)
  let nr := netlocSplit sr.2
  if netlocOk nr.1 then
    let rf := splitFirst '#' nr.2
    let pq := splitFirst '?' rf.1
    .ok ⟨sr.1, nr.1, pq.1, pq.2, rf.2⟩
  else
    .error ()

/-- Python `s[-(k):]` after the last `/`: the suffix of `l` after its last
slash (all of `l` when there is no slash). -/
def afterLastSlash (l : List Char) : List Char :=
  (l.reverse.takeWhile (· ≠ '/')).reverse

/-- CPython `_splitparams` (only invoked when `;` occurs in the relevant
part, as in `urlparse`). -/
def splitParamsPair (l : List Char) : List Char × List Char :=
  if '/' ∈ l then
    let suf := afterLastSlash l
    if ';' ∈ suf then
      (l.take (l.length - suf.length) ++ suf.takeWhile (· ≠ ';'),
       (suf.dropWhile (· ≠ ';')).drop 1)
    else (l, [])
  else
    (l.takeWhile (· ≠ ';'), (l.dropWhile (· ≠ ';')).drop 1)

/-- CPython `uses_relative`. -/
def pyUsesRelative : List (List Char) :=
  ["", "ftp", "http", "gopher", "nntp", "imap", "wais", "file", "https",
   "shttp", "mms", "prospero", "rtsp", "rtspu", "sftp", "svn", "svn+ssh",
   "ws", "wss"].map String.toList

/-- CPython `uses_netloc`. -/
def pyUsesNetloc : List (List Char) :=
  ["", "ftp", "http", "gopher", "nntp", "telnet", "imap", "wais", "file",
   "mms", "https", "shttp", "snews", "prospero", "rtsp", "rtspu", "rsync",
   "svn", "svn+ssh", "sftp", "nfs", "git", "git+ssh", "ws", "wss"].map
    String.toList

/-- CPython `uses_params`. -/
def pyUsesParams : List (List Char) :=
  ["", "ftp", "hdl", "prospero", "http", "imap", "https", "shttp", "rtsp",
   "rtspu", "sip", "sips", "mms", "sftp", "tel"].map String.toList

/-- Param stage of `urlparse`: split `params` out of the path when the
scheme uses them. -/
def paramStage (s : SplitUrl) : ParseUrl :=
  if s.scheme ∈ pyUsesParams ∧ ';' ∈ s.path then
    ⟨s.scheme, s.netloc, (splitParamsPair s.path).1,
     (splitParamsPair s.path).2, s.query, s.fragment⟩
  else
    ⟨s.scheme, s.netloc, s.path, [], s.query, s.fragment⟩

/-- CPython 3.11 `urlparse(url, default, allow_fragments=True)`. -/
def urlparseE (url defaultScheme : List Char) : Except Unit ParseUrl :=
  (urlsplitE url defaultScheme).map paramStage

/-- CPython 3.11 `urlunsplit`. -/
def urlunsplitL (scheme netloc path query fragment : List Char) : List Char :=
  let u1 := if netloc ≠ [] ∨
      (scheme ≠ [] ∧ scheme ∈ pyUsesNetloc ∧ path.take 2 ≠ ['/', '/']) then
    let u0 := if path ≠ [] ∧ path.take 1 ≠ ['/'] then '/' :: path else path
    '/' :: '/' :: (netloc ++ u0)
  else path
  let u2 := if scheme ≠ [] then scheme ++ ':' :: u1 else u1
  let u3 := if query ≠ [] then u2 ++ '?' :: query else u2
  if fragment ≠ [] then u3 ++ '#' :: fragment else u3

/-- CPython 3.11 `urlunparse`. -/
def urlunparseL (scheme netloc path params query fragment : List Char) :
    List Char :=
  let p := if params ≠ [] then path ++ ';' :: params else path
  urlunsplitL scheme netloc p query fragment

/-- Python `filter(None, middle)` applied to `segments[1:-1]` by the slice
assignment in `urljoin`: keeps the last element, drops empty ones before. -/
def keepLastFilter : List (List Char) → List (List Char)
  | [] => []
  | [y] => [y]
  | y :: ys => if y = [] then keepLastFilter ys else y :: keepLastFilter ys

/-- The `segments[1:-1] = filter(None, segments[1:-1])` slice assignment. -/
def filterMiddle : List (List Char) → List (List Char)
  | [] => []
  | x :: xs => x :: keepLastFilter xs

/-- The `resolved_path` accumulation loop of `urljoin` (`..` pops, `.` is
skipped, everything else is appended; popping an empty list is ignored). -/
def resolveSegs (acc : List (List Char)) : List (List Char) → List (List Char)
  | [] => acc
  | s :: rest =>
    if s = ['.', '.'] then resolveSegs acc.dropLast rest
    else if s = ['.'] then resolveSegs acc rest
    else resolveSegs (acc ++ [s]) rest

/-- The segment list of the relative-merge branch of `urljoin`
(`base_parts`, possibly truncated, plus the split relative path, with
empty middle segments filtered). -/
def segsOf (bpath upath : List Char) : List (List Char) :=
  if upath.take 1 = ['/'] then pySplit '/' upath
  else
    filterMiddle
      ((if (pySplit '/' bpath).getLastD [] ≠ [] then
          (pySplit '/' bpath).dropLast
        else pySplit '/' bpath) ++ pySplit '/' upath)

/-- The `resolved_path` loop plus trailing-dot fixup and join of
`urljoin` (`'/'.join(resolved_path) or '/'`). -/
def joinSegs (segments : List (List Char)) : List Char :=
  let resolved0 := resolveSegs [] segments
  let resolved :=
    if segments.getLastD [] = ['.'] ∨ segments.getLastD [] = ['.', '.']
    then resolved0 ++ [[]] else resolved0
  let joined := pyJoin '/' resolved
  if joined = [] then ['/'] else joined

/-- The resolved path of the relative-merge branch of `urljoin`. -/
def mergePath (bpath upath : List Char) : List Char :=
  joinSegs (segsOf bpath upath)

/-- Error-free core of `urljoin` once both URLs parsed (CPython raises
nothing past the parses). -/
def urljoinCore (b u : ParseUrl) (url : List Char) : List Char :=
  if u.scheme ≠ b.scheme ∨ u.scheme ∉ pyUsesRelative then url
  else if u.scheme ∈ pyUsesNetloc ∧ u.netloc ≠ [] then
    urlunparseL u.scheme u.netloc u.path u.params u.query u.fragment
  else
    let netloc := if u.scheme ∈ pyUsesNetloc then b.netloc else u.netloc
    if u.path = [] ∧ u.params = [] then
      urlunparseL u.scheme netloc b.path b.params
        (if u.query = [] then b.query else u.query) u.fragment
    else
      urlunparseL u.scheme netloc (mergePath b.path u.path) u.params
        u.query u.fragment

/-- CPython 3.11 `urljoin(base, url)`. -/
def urljoinE (base url : List Char) : Except Unit (List Char) :=
  if base = [] then .ok url
  else if url = [] then .ok base
  else
    (urlparseE base []).bind (fun b =>
      (urlparseE url b.scheme).map (fun u => urljoinCore b u url))

-- ==========================================================
-- normalize_link (src/app.py lines 62-81)
-- ==========================================================

/-- The excluded reference schemes of `normalize_link`. -/
def badSchemes : List (List Char) :=
  ["mailto:", "tel:", "javascript:", "whatsapp:", "viber:", "tg:", "#",
   "sms:", "skype:"].map String.toList

/-- `normalize_link(base, href)` from src/app.py.  `href = none` models a
`None` or non-string argument; `Except.error` models an uncaught
`ValueError` escaping from `urljoin`. -/
def normalize_link (base : List Char) (href : Option (List Char)) :
    Except Unit (Option (List Char)) :=
  match href with
  | none => .ok none
  | some h0 =>
    if h0 = [] then .ok none
    else
      let h := pyStrip h0
      if badSchemes.any (fun p => listStartsWith h p) then .ok none
      else if listStartsWith h ("http://".toList) ∨
          listStartsWith h ("https://".toList) then
        .ok (some (beforeHash h))
      else if listStartsWith h ("//".toList) then
        .ok (some ("https:".toList ++ beforeHash h))
      else
        (urljoinE base (beforeHash h)).map (fun r => some r)

-- ==========================================================
-- same_domain (src/app.py lines 87-91)
-- ==========================================================

/-- `same_domain(a, b)` from src/app.py, parameterised by the external
`tldextract` registered-domain extraction; `none` models the extraction
raising, which the bare `except` turns into `False`. -/
def same_domain (ext : List Char → Option (List Char)) (a b : List Char) :
    Bool :=
  match ext a, ext b with
  | some da, some db => da = db
  | _, _ => false

-- ==========================================================
-- Crawler (src/app.py lines 102-169)
-- ==========================================================

/-- What one successful `requests.get` + BeautifulSoup pass yields for a
URL: title, visible text, meta map and the raw anchor `href` values, in
document order. -/
structure FetchedDoc where
  title : List Char
  text : List Char
  meta : List (List Char × List Char)
  hrefs : List (List Char)

/-- A page record appended to `pages` by `crawl_site`. -/
structure Page where
  url : List Char
  title : List Char
  meta : List (List Char × List Char)
  text : List Char
  links : List (List Char)
deriving DecidableEq

/-- The dictionary returned by `crawl_site`. -/
structure CrawlResult where
  start_url : List Char
  pages : List Page
  count : Nat
deriving DecidableEq

/-- The anchor-processing loop of `crawl_site`: each normalized link that is
truthy and on the start domain is kept; an uncaught `ValueError` escaping
`normalize_link` aborts the whole page (`Except.error`). -/
def collectLinks (ext : List Char → Option (List Char))
    (start url : List Char) : List (List Char) →
    Except Unit (List (List Char))
  | [] => .ok []
  | h :: t =>
    match normalize_link url (some h) with
    | .error e => .error e
    | .ok none => collectLinks ext start url t
    | .ok (some l) =>
      if l ≠ [] ∧ same_domain ext start l then
        (collectLinks ext start url t).map (fun r => l :: r)
      else
        collectLinks ext start url t

/-- Mutable state of the `while` loop of `crawl_site`.  `visited` is the
Python set, kept as the list of URLs in the order they were added; since an
addition happens exactly once per fetch attempt (`visited.add(url)`
immediately precedes `requests.get(url)`), `visited` is also the log of
fetched URLs. -/
structure CrawlState where
  visited : List (List Char)
  queue : List (List Char × Nat)
  pages : List Page

/-- One pass of the `while queue and len(pages) < max_pages` loop of
`crawl_site`, iterated on explicit fuel (the Python loop terminates because
at most `max_pages` successful pages each enqueue finitely many links; fuel
exhaustion returns the current state, and every property proved below holds
for every fuel value).  A `web url = none` covers timeout, transport error,
non-200 status and parse exceptions, all of which `continue` after the URL
was added to `visited`. -/
def crawlLoop (web : List Char → Option FetchedDoc)
    (ext : List Char → Option (List Char)) (start : List Char)
    (maxPages depth : Nat) : Nat → CrawlState → CrawlState
  | 0, s => s
  | Nat.succ fuel, s =>
    if s.pages.length ≥ maxPages then s
    else match s.queue with
    | [] => s
    | (url, d) :: rest =>
      if url ∈ s.visited ∨ d > depth then
        crawlLoop web ext start maxPages depth fuel ⟨s.visited, rest, s.pages⟩
      else
        let visited1 := s.visited ++ [url]
        match web url with
        | none =>
          crawlLoop web ext start maxPages depth fuel ⟨visited1, rest, s.pages⟩
        | some doc =>
          match collectLinks ext start url doc.hrefs with
          | .error _ =>
            crawlLoop web ext start maxPages depth fuel
              ⟨visited1, rest, s.pages⟩
          | .ok links =>
            let page : Page :=
              ⟨url, doc.title, doc.meta, doc.text.take 20000, links⟩
            let fresh := (links.filter (fun l => l ∉ visited1)).map
              (fun l => (l, d + 1))
            crawlLoop web ext start maxPages depth fuel
              ⟨visited1, rest ++ fresh, s.pages ++ [page]⟩

/-- Final loop state of `crawl_site(start_url, max_pages, depth)`. -/
def crawl_site_state (web : List Char → Option FetchedDoc)
    (ext : List Char → Option (List Char)) (start : List Char)
    (maxPages depth fuel : Nat) : CrawlState :=
  crawlLoop web ext start maxPages depth fuel ⟨[], [(start, 0)], []⟩

/-- `crawl_site` from src/app.py: the returned dictionary. -/
def crawl_site (web : List Char → Option FetchedDoc)
    (ext : List Char → Option (List Char)) (start : List Char)
    (maxPages depth fuel : Nat) : CrawlResult :=
  let s := crawl_site_state web ext start maxPages depth fuel
  ⟨start, s.pages, s.pages.length⟩

/-- Reachability in the kept-link graph of a crawl: `ReachN web ext start n u`
holds when `u` is reachable from `start_url` in exactly `n` link hops, where
the links out of a page are the ones `crawl_site` keeps (normalized,
truthy, same-domain) from a successful fetch. -/
inductive ReachN (web : List Char → Option FetchedDoc)
    (ext : List Char → Option (List Char)) (start : List Char) :
    Nat → List Char → Prop
  | start : ReachN web ext start 0 start
  | step {n : Nat} {v u : List Char} {doc : FetchedDoc}
      {links : List (List Char)} :
      ReachN web ext start n v → web v = some doc →
      collectLinks ext start v doc.hrefs = .ok links → u ∈ links →
      ReachN web ext start (n + 1) u

-- ==========================================================
-- Session store (src/app.py lines 23-24, 228-252)
-- ==========================================================

/-- `MAX_SESSIONS` from src/app.py. -/
def MAX_SESSIONS : Nat := 100

/-- `timedelta(hours=SESSION_TTL_HOURS)` in model time units (minutes). -/
def SESSION_TTL : Int := 24 * 60

/-- One `STORE` entry.  `created_at` is a model timestamp in minutes; every
session the app stores carries one (set in `/analyze`), so the
`sess.get("created_at")` guards in the source never see a missing value. -/
structure Session where
  site : CrawlResult
  first_output : String
  last_followup : Option String
  history : List (String × Option String)
  created_at : Int
deriving DecidableEq

/-- The global `STORE` dict: insertion-ordered key/value pairs. -/
abbrev Store : Type := List (String × Session)

/-- Python `STORE.get(sid)` (first entry with the key). -/
def storeGet (sid : String) (store : Store) : Option Session :=
  (store.find? (fun e => e.1 = sid)).map (fun e => e.2)

/-- Python `STORE[sid] = sess`: replace in place if present, append if new
(dict insertion order). -/
def storePut (sid : String) (sess : Session) (store : Store) : Store :=
  if store.any (fun e => e.1 = sid) then
    store.map (fun e => if e.1 = sid then (sid, sess) else e)
  else
    store ++ [(sid, sess)]

/-- `cleanup_old_sessions()` from src/app.py, evaluated at time `now`:
deletes every entry whose age exceeds the TTL. -/
def cleanup_old_sessions (now : Int) (store : Store) : Store :=
  store.filter (fun e => ¬ (now - e.2.created_at > SESSION_TTL))

/-- Stable insertion (by `created_at`) used to model Python's stable
`sorted(..., key=lambda x: x[1].get("created_at", ...))`. -/
def insertByCreated (x : String × Session) :
    List (String × Session) → List (String × Session)
  | [] => [x]
  | y :: ys =>
    if x.2.created_at ≤ y.2.created_at then x :: y :: ys
    else y :: insertByCreated x ys

/-- Stable sort of the store by ascending `created_at`. -/
def sortByCreated (l : List (String × Session)) : List (String × Session) :=
  l.foldr insertByCreated []

/-- `limit_sessions()` from src/app.py: when over capacity, delete the
oldest-created entries (stable ascending sort, take the excess) from the
dict. -/
def limit_sessions (store : Store) : Store :=
  if store.length > MAX_SESSIONS then
    let victims := ((sortByCreated store).take
      (store.length - MAX_SESSIONS)).map (fun e => e.1)
    store.filter (fun e => ¬ e.1 ∈ victims)
  else
    store

-- ==========================================================
-- Endpoint store effects (src/app.py lines 281-434)
-- ==========================================================

/-- Store/status effect of one `POST /analyze` request.  `siteUrl` and
`reqSid` are the JSON fields (`none` for absent or falsy); `freshSid` is the
`uuid4` the request would mint; `outcome` is `some (site_data,
model_output)` when prompt fetch, crawl and model call all succeed effects
and `none` when any of them raises (the `except` path returning 500). -/
def analyze_req (now : Int) (siteUrl : Option String) (reqSid : Option String)
    (freshSid : String) (outcome : Option (CrawlResult × String))
    (store : Store) : Nat × Store :=
  let s1 := limit_sessions (cleanup_old_sessions now store)
  match siteUrl with
  | none => (400, s1)
  | some u =>
    if u = "" then (400, s1)
    else
      let sid := match reqSid with
        | some es =>
          if es ≠ "" ∧ (storeGet es s1).isSome then es else freshSid
        | none => freshSid
      match outcome with
      | none => (500, s1)
      | some r =>
        (200, storePut sid ⟨r.1, r.2, none, [], now⟩ s1)

/-- Session mutation performed by a successful `/followup`: replace
`last_followup` and append the user/assistant turn to `history`. -/
def followupSess (instr : Option String) (text : String) (s : Session) :
    Session :=
  ⟨s.site, s.first_output, some text,
   s.history ++ [("user", instr), ("assistant", some text)], s.created_at⟩

/-- Store/status effect of one `POST /followup` request.  `promptOutcome`
models `fetch_gdoc_text` (`none` = raised, 500), `modelOutcome` models the
model call plus response extraction (`none` = raised, 500). -/
def followup_req (reqSid : Option String) (instr : Option String)
    (promptOutcome : Option String) (modelOutcome : Option String)
    (store : Store) : Nat × Store :=
  match reqSid with
  | none => (404, store)
  | some sid =>
    if sid = "" ∨ (storeGet sid store).isNone then (404, store)
    else match promptOutcome with
    | none => (500, store)
    | some _ =>
      match modelOutcome with
      | none => (500, store)
      | some text =>
        (200, store.map (fun e =>
          if e.1 = sid then (e.1, followupSess instr text e.2) else e))

/-- Session mutation performed by `/clear-chat`: reset `history` and
`last_followup`, keep everything else. -/
def clearSess (s : Session) : Session :=
  ⟨s.site, s.first_output, none, [], s.created_at⟩

/-- Store effect and response of one `POST /clear-chat` request: status code
and, on success, the reported prior message count. -/
def clear_chat_req (reqSid : Option String) (store : Store) :
    (Nat × Option Nat) × Store :=
  match reqSid with
  | none => ((404, none), store)
  | some sid =>
    if sid = "" ∨ (storeGet sid store).isNone then ((404, none), store)
    else
      ((200, (storeGet sid store).map (fun s => s.history.length)),
       store.map (fun e =>
         if e.1 = sid then (e.1, clearSess e.2) else e))

-- ==========================================================
-- Concrete scenario data (for counterexamples and witnesses)
-- ==========================================================

/-- Empty crawl corpus used in concrete store scenarios. -/
def blankSite : CrawlResult := ⟨[], [], 0⟩

/-- A minimal stored session created at model time `t`. -/
def mkSession (t : Int) : Session := ⟨blankSite, "out", none, [], t⟩

/-- A session created at time 0. -/
def blankSession : Session := mkSession 0

/-- Distinct session identifiers for the sequential-creation scenario. -/
def sidName (n : Nat) : String := Nat.repr n

/-- Store contents after `n` successful sequential `/analyze` calls; call
`i` (zero-based) runs at time `i` minutes with fresh identifier `sidName i`
and succeeds.  All ages stay far below the 24-hour TTL. -/
def seqStore : Nat → Store
  | 0 => []
  | Nat.succ n =>
    (analyze_req (n : Int) (some "site") none (sidName n)
      (some (blankSite, "out")) (seqStore n)).2

/-- A one-entry store whose session was created at time 0 (expired once
`now` exceeds the TTL). -/
def expiredStore : Store := [("a", mkSession 0)]

/-- Tiny web oracle: only the URL `"a"` exists and has no links. -/
def webOne : List Char → Option FetchedDoc :=
  fun u => if u = ['a'] then some ⟨[], [], [], []⟩ else none

/-- Web oracle on which every fetch fails. -/
def webNone : List Char → Option FetchedDoc := fun _ => none

/-- Extraction oracle that always raises. -/
def extNone : List Char → Option (List Char) := fun _ => none

/-- Extraction oracle that always returns the same registered domain. -/
def extConst : List Char → Option (List Char) := fun _ => some ['d']

-- ==========================================================
-- Helper lemmas: store permutations and key counting
-- ==========================================================

theorem insertByCreated_perm (x : String × Session)
    (l : List (String × Session)) : (insertByCreated x l).Perm (x :: l) := by
  induction l with
  | nil => exact List.Perm.refl _
  | cons y ys ih =>
    unfold insertByCreated
    by_cases h : x.2.created_at ≤ y.2.created_at
    · rw [if_pos h]
    · rw [if_neg h]
      exact (ih.cons y).trans (List.Perm.swap x y ys)

theorem sortByCreated_perm (l : List (String × Session)) :
    (sortByCreated l).Perm l := by
  induction l with
  | nil => exact List.Perm.refl _
  | cons x xs ih =>
    exact (insertByCreated_perm x (sortByCreated xs)).trans (ih.cons x)

theorem storeGet_cons (e : String × Session) (es : Store) (k : String) :
    storeGet k (e :: es) = if e.1 = k then some e.2 else storeGet k es := by
  by_cases h : e.1 = k
  · simp [storeGet, List.find?_cons, h]
  · simp [storeGet, List.find?_cons, h]

theorem storeGet_eq_none (k : String) (store : Store)
    (h : ¬ k ∈ store.map Prod.fst) : storeGet k store = none := by
  induction store with
  | nil => rfl
  | cons e es ih =>
    rw [List.map_cons, List.mem_cons] at h
    push_neg at h
    rw [storeGet_cons, if_neg (Ne.symm h.1), ih h.2]

theorem storeGet_filter (p : String × Session → Bool) (k : String) :
    ∀ store : Store, (store.map Prod.fst).Nodup →
      storeGet k (store.filter p) = storeGet k store ∨
      storeGet k (store.filter p) = none := by
  intro store
  induction store with
  | nil => intro _; right; rfl
  | cons e es ih =>
    intro hnd
    rw [List.map_cons, List.nodup_cons] at hnd
    obtain ⟨hni, hnd2⟩ := hnd
    have hkeysub : ∀ l : Store, k ∈ (l.filter p).map Prod.fst →
        k ∈ l.map Prod.fst := by
      intro l hmem
      obtain ⟨e2, he2, hk2⟩ := List.mem_map.mp hmem
      exact List.mem_map.mpr ⟨e2, List.mem_of_mem_filter he2, hk2⟩
    by_cases hek : e.1 = k
    · by_cases hp : p e
      · left
        rw [List.filter_cons_of_pos hp, storeGet_cons, storeGet_cons,
          if_pos hek, if_pos hek]
      · right
        rw [List.filter_cons_of_neg hp]
        apply storeGet_eq_none
        intro hc
        exact hni (hek ▸ hkeysub es hc)
    · by_cases hp : p e
      · rw [List.filter_cons_of_pos hp, storeGet_cons, storeGet_cons,
          if_neg hek, if_neg hek]
        exact ih hnd2
      · rw [List.filter_cons_of_neg hp, storeGet_cons, if_neg hek]
        exact ih hnd2

theorem remove_one_key_length (v : String) :
    ∀ store : Store, (store.map Prod.fst).Nodup → v ∈ store.map Prod.fst →
      (store.filter (fun e => ¬ e.1 = v)).length + 1 = store.length := by
  intro store
  induction store with
  | nil => intro _ h; simp at h
  | cons e es ih =>
    intro hnd hm
    rw [List.map_cons, List.nodup_cons] at hnd
    obtain ⟨hni, hnd2⟩ := hnd
    by_cases h : e.1 = v
    · have hfe : es.filter (fun e2 => ¬ e2.1 = v) = es := by
        rw [List.filter_eq_self]
        intro a ha
        simp only [decide_eq_true_eq]
        intro hav
        exact hni (by rw [h, ← hav]; exact List.mem_map.mpr ⟨a, ha, rfl⟩)
      rw [List.filter_cons_of_neg (by simp [h]), hfe]
      simp
    · have hm2 : v ∈ es.map Prod.fst := by
        rw [List.map_cons, List.mem_cons] at hm
        rcases hm with hm1 | hm2
        · exact absurd hm1.symm h
        · exact hm2
      rw [List.filter_cons_of_pos (by simp [h])]
      simp only [List.length_cons]
      have := ih hnd2 hm2
      omega

theorem filter_keys_length (vk : List String) :
    ∀ store : Store, (store.map Prod.fst).Nodup → vk.Nodup →
      (∀ x ∈ vk, x ∈ store.map Prod.fst) →
      (store.filter (fun e => ¬ e.1 ∈ vk)).length + vk.length =
        store.length := by
  induction vk with
  | nil =>
    intro store _ _ _
    have : store.filter (fun e => ¬ e.1 ∈ ([] : List String)) = store := by
      rw [List.filter_eq_self]
      intro a _
      simp
    rw [this]
    simp
  | cons v vs ih =>
    intro store hnd hvk hsub
    rw [List.nodup_cons] at hvk
    obtain ⟨hvn, hvs⟩ := hvk
    have hsplit : store.filter (fun e => ¬ e.1 ∈ v :: vs) =
        (store.filter (fun e => ¬ e.1 = v)).filter (fun e => ¬ e.1 ∈ vs) := by
      rw [List.filter_filter]
      apply List.filter_congr
      intro a _
      by_cases h1 : a.1 = v <;> by_cases h2 : a.1 ∈ vs <;>
        simp [List.mem_cons, h1, h2]
    have hnd2 : ((store.filter (fun e => ¬ e.1 = v)).map Prod.fst).Nodup :=
      List.Nodup.sublist ((List.filter_sublist store).map Prod.fst) hnd
    have hsub2 : ∀ x ∈ vs,
        x ∈ (store.filter (fun e => ¬ e.1 = v)).map Prod.fst := by
      intro x hx
      have hxv : x ≠ v := fun hc => hvn (hc ▸ hx)
      obtain ⟨e2, he2, hk2⟩ :=
        List.mem_map.mp (hsub x (List.mem_cons_of_mem v hx))
      refine List.mem_map.mpr ⟨e2, List.mem_filter.mpr ⟨he2, ?_⟩, hk2⟩
      simp [hk2, hxv]
    have h1 := ih (store.filter (fun e => ¬ e.1 = v)) hnd2 hvs hsub2
    have h2 := remove_one_key_length v store hnd
      (hsub v (List.mem_cons_self v vs))
    rw [hsplit]
    simp only [List.length_cons]
    omega

-- ==========================================================
-- C7: same_domain symmetry and reflexivity
-- ==========================================================

/-- C7: `same_domain` is symmetric (`same_domain a b = same_domain b a` for
all URL strings and any behaviour of the tldextract library), and reflexive
on every URL for which the registered-domain extraction succeeds — which it
does on any well-formed absolute URL. -/
theorem same_domain_symm_refl (ext : List Char → Option (List Char))
    (a b : List Char) :
    same_domain ext a b = same_domain ext b a ∧
    (∀ d, ext a = some d → same_domain ext a a = true) := by
  constructor
  · unfold same_domain
    rcases ha : ext a with _ | da <;> rcases hb : ext b with _ | db <;>
      simp only [ha, hb]
    rw [decide_eq_decide]
    exact eq_comm
  · intro d hd
    unfold same_domain
    rw [hd]
    simp

/-- Witness for C7 at a concrete extraction oracle and URL. -/
theorem same_domain_symm_refl_witness :
    same_domain extConst ['a'] ['a'] = true :=
  (same_domain_symm_refl extConst ['a'] ['a']).2 ['d'] rfl

-- ==========================================================
-- C2: session-store eviction bounds
-- ==========================================================

/-- C2: after `cleanup_old_sessions` runs at time `now` no surviving entry
has age greater than the TTL, and after `limit_sessions` runs on a store
with distinct keys (as a Python dict always has) at most `MAX_SESSIONS`
entries remain. -/
theorem session_eviction_bounds (now : Int) (store : Store) :
    (∀ e ∈ cleanup_old_sessions now store,
      now - e.2.created_at ≤ SESSION_TTL) ∧
    ((store.map Prod.fst).Nodup →
      (limit_sessions store).length ≤ MAX_SESSIONS) := by
  constructor
  · intro e he
    unfold cleanup_old_sessions at he
    have h1 := List.of_mem_filter he
    simp only [decide_eq_true_eq, not_lt] at h1
    exact h1
  · intro hnd
    unfold limit_sessions
    by_cases hlen : store.length > MAX_SESSIONS
    · rw [if_pos hlen]
      have hperm := sortByCreated_perm store
      have hkeys : ((sortByCreated store).map Prod.fst).Perm
          (store.map Prod.fst) := hperm.map _
      have hsubl : (((sortByCreated store).take
          (store.length - MAX_SESSIONS)).map (fun e => e.1)).Sublist
          ((sortByCreated store).map Prod.fst) :=
        (List.take_sublist _ _).map _
      have hndv := List.Nodup.sublist hsubl ((hkeys.nodup_iff).mpr hnd)
      have hsubm : ∀ x ∈ ((sortByCreated store).take
          (store.length - MAX_SESSIONS)).map (fun e => e.1),
          x ∈ store.map Prod.fst := by
        intro x hx
        exact (hkeys.mem_iff).mp (hsubl.subset hx)
      have hlv : (((sortByCreated store).take
          (store.length - MAX_SESSIONS)).map (fun e => e.1)).length =
          store.length - MAX_SESSIONS := by
        rw [List.length_map, List.length_take]
        have h1 : (sortByCreated store).length = store.length :=
          hperm.length_eq
        omega
      have hcount := filter_keys_length _ store hnd hndv hsubm
      dsimp only
      omega
    · rw [if_neg hlen]
      omega

/-- Witness for C2 at a concrete time and one-entry store. -/
theorem session_eviction_bounds_witness :
    ((0 : Int) - blankSession.created_at ≤ SESSION_TTL) ∧
    (limit_sessions [("a", blankSession)]).length ≤ MAX_SESSIONS := by
  constructor
  · exact (session_eviction_bounds 0 [("a", blankSession)]).1
      ("a", blankSession) (by decide)
  · exact (session_eviction_bounds 0 [("a", blankSession)]).2 (by decide)

-- ==========================================================
-- Helper lemmas: map-update and the sequential scenario
-- ==========================================================

theorem storeGet_map_update (sid : String) (g : Session → Session)
    (k : String) :
    ∀ store : Store,
      storeGet k (store.map (fun e =>
        if e.1 = sid then (e.1, g e.2) else e)) =
      if k = sid then (storeGet k store).map g else storeGet k store := by
  intro store
  induction store with
  | nil => by_cases h : k = sid <;> simp [storeGet, h]
  | cons e es ih =>
    rw [List.map_cons]
    by_cases hes : e.1 = sid <;> by_cases hek : e.1 = k
    · have hks : k = sid := hek ▸ hes
      rw [if_pos hes, storeGet_cons, storeGet_cons]
      simp [hek, hks]
    · rw [if_pos hes, storeGet_cons, storeGet_cons]
      simp [hek, ih]
    · have hks : ¬ k = sid := fun hc => hes (by rw [hek, hc])
      rw [if_neg hes, storeGet_cons, storeGet_cons]
      simp [hek, hks]
    · rw [if_neg hes, storeGet_cons, storeGet_cons]
      simp [hek, ih]

theorem seqStore_101_len : (seqStore 101).length = 101 := by decide

theorem limit_seqStore_101 :
    limit_sessions (seqStore 101) = (seqStore 101).drop 1 := by decide

theorem seqStore_101_oldest :
    storeGet (sidName 0) (seqStore 101) = some (mkSession 0) := by decide

theorem seqStore_101_oldest_gone :
    storeGet (sidName 0) ((seqStore 101).drop 1) = none := by decide

-- ==========================================================
-- C3: 101 sequential session creations
-- ==========================================================

/-- C3 counterexample: after 101 successful sequential `/analyze` calls
with distinct fresh identifiers and no TTL expiry, the store holds 101
entries, not 100 — eviction runs at the start of each request, before the
insertion, so the 101st insertion is never trimmed within its own call. -/
theorem seq_sessions_101_cex :
    (seqStore 101).length = 101 ∧ ¬ (seqStore 101).length = 100 := by
  have h := seqStore_101_len
  exact ⟨h, by omega⟩

/-- C3 amended: creating 101 sessions sequentially leaves 101 entries; the
store only returns to `MAX_SESSIONS` entries when the next request's
eviction pass runs, and that pass removes exactly the single entry with the
oldest `created_at`, leaving the remaining 100 unchanged. -/
theorem seq_sessions_101_amended :
    limit_sessions (seqStore 101) = (seqStore 101).drop 1 ∧
    (limit_sessions (seqStore 101)).length = 100 ∧
    storeGet (sidName 0) (seqStore 101) = some (mkSession 0) ∧
    storeGet (sidName 0) (limit_sessions (seqStore 101)) = none := by
  refine ⟨limit_seqStore_101, ?_, seqStore_101_oldest, ?_⟩
  · rw [limit_seqStore_101, List.length_drop, seqStore_101_len]
  · rw [limit_seqStore_101]
    exact seqStore_101_oldest_gone

-- ==========================================================
-- C9: /clear-chat frame conditions
-- ==========================================================

/-- C9: `/clear-chat` with a non-empty identifier present in the store
returns success reporting the prior history length, resets exactly that
session's `history` to empty and `last_followup` to absent while keeping
its `site`, `first_output` and `created_at`, and leaves every other entry
unchanged; with an absent, empty or unknown identifier it returns 404 and
leaves the store untouched.  (The `sid ≠ ""` hypothesis reflects that
stored identifiers are uuid4 strings or reused stored keys, never empty;
an empty identifier is falsy in Python and is routed to the 404 branch.) -/
theorem clear_chat_spec (sid : String) (store : Store) (sess : Session)
    (hne : sid ≠ "") (hget : storeGet sid store = some sess) :
    ((clear_chat_req (some sid) store).1 =
        (200, some sess.history.length) ∧
     storeGet sid (clear_chat_req (some sid) store).2 =
        some ⟨sess.site, sess.first_output, none, [], sess.created_at⟩ ∧
     ∀ k, k ≠ sid →
       storeGet k (clear_chat_req (some sid) store).2 = storeGet k store) ∧
    (clear_chat_req none store = ((404, none), store) ∧
     clear_chat_req (some "") store = ((404, none), store) ∧
     ∀ s2, storeGet s2 store = none →
       clear_chat_req (some s2) store = ((404, none), store)) := by
  have hcond : ¬ (sid = "" ∨ (storeGet sid store).isNone) := by
    rw [hget]
    simp [hne]
  constructor
  · refine ⟨?_, ?_, ?_⟩
    · simp only [clear_chat_req]
      rw [if_neg hcond, hget]
      rfl
    · simp only [clear_chat_req]
      rw [if_neg hcond]
      rw [show ((200, (storeGet sid store).map (fun s => s.history.length)),
          store.map (fun e =>
            if e.1 = sid then (e.1, clearSess e.2) else e)).2 =
          store.map (fun e =>
            if e.1 = sid then (e.1, clearSess e.2) else e) from rfl]
      rw [storeGet_map_update sid clearSess, if_pos rfl, hget]
      rfl
    · intro k hk
      simp only [clear_chat_req]
      rw [if_neg hcond]
      rw [show ((200, (storeGet sid store).map (fun s => s.history.length)),
          store.map (fun e =>
            if e.1 = sid then (e.1, clearSess e.2) else e)).2 =
          store.map (fun e =>
            if e.1 = sid then (e.1, clearSess e.2) else e) from rfl]
      rw [storeGet_map_update sid clearSess, if_neg hk]
  · refine ⟨rfl, ?_, ?_⟩
    · simp [clear_chat_req]
    · intro s2 h2
      simp only [clear_chat_req]
      rw [if_pos (Or.inr (by rw [h2]; rfl))]

/-- Witness for C9 at a concrete one-entry store. -/
theorem clear_chat_spec_witness :
    (clear_chat_req (some "s") [("s", blankSession)]).1 = (200, some 0) :=
  ((clear_chat_spec "s" [("s", blankSession)] blankSession
    (by decide) (by decide)).1).1

-- ==========================================================
-- C10: failed requests and the session store
-- ==========================================================

/-- C10 counterexample: a failed `/analyze` (500) with a reused identifier
whose entry is TTL-expired deletes that entry anyway — the eviction pass
runs before the failure, so the store is not left unchanged. -/
theorem analyze_failure_cex :
    storeGet "a" expiredStore = some (mkSession 0) ∧
    (analyze_req 2000 (some "site") (some "a") "fresh" none
      expiredStore).1 = 500 ∧
    (analyze_req 2000 (some "site") (some "a") "fresh" none
      expiredStore).2 = [] := by decide

/-- C10 amended: a 500-failing `/analyze` leaves the store exactly as the
pre-request eviction pass (cleanup then limit) leaves it — it creates no
entry, and every identifier is either untouched or evicted — and a
500-failing `/followup` (prompt-fetch failure or model failure) leaves the
store exactly unchanged. -/
theorem failed_request_frame (now : Int) (siteUrl reqSid : Option String)
    (freshSid : String) (store : Store)
    (hnd : (store.map Prod.fst).Nodup) :
    ((analyze_req now siteUrl reqSid freshSid none store).2 =
       limit_sessions (cleanup_old_sessions now store) ∧
     ∀ k, storeGet k
            (analyze_req now siteUrl reqSid freshSid none store).2 =
          storeGet k store ∨
          storeGet k
            (analyze_req now siteUrl reqSid freshSid none store).2 =
          none) ∧
    (∀ sid2 instr modelOut store2,
      (followup_req sid2 instr none modelOut store2).2 = store2) ∧
    (∀ sid2 instr promptOut store2,
      (followup_req sid2 instr promptOut none store2).2 = store2) := by
  have heq : (analyze_req now siteUrl reqSid freshSid none store).2 =
      limit_sessions (cleanup_old_sessions now store) := by
    cases siteUrl with
    | none => rfl
    | some u =>
      by_cases hu : u = ""
      · simp [analyze_req, hu]
      · simp [analyze_req, hu]
  refine ⟨⟨heq, ?_⟩, ?_, ?_⟩
  · intro k
    rw [heq]
    have hnd1 : ((cleanup_old_sessions now store).map Prod.fst).Nodup := by
      unfold cleanup_old_sessions
      exact List.Nodup.sublist ((List.filter_sublist store).map Prod.fst) hnd
    have hclean := storeGet_filter
      (fun e => ¬ (now - e.2.created_at > SESSION_TTL)) k store hnd
    have hlim : storeGet k
        (limit_sessions (cleanup_old_sessions now store)) =
        storeGet k (cleanup_old_sessions now store) ∨
        storeGet k
        (limit_sessions (cleanup_old_sessions now store)) = none := by
      unfold limit_sessions
      by_cases hl : (cleanup_old_sessions now store).length > MAX_SESSIONS
      · rw [if_pos hl]
        dsimp only
        exact storeGet_filter _ k _ hnd1
      · rw [if_neg hl]
        left
        rfl
    rcases hlim with h1 | h1
    · rcases hclean with h2 | h2
      · exact Or.inl (h1.trans h2)
      · exact Or.inr (h1.trans h2)
    · exact Or.inr h1
  · intro sid2 instr modelOut store2
    cases sid2 with
    | none => rfl
    | some s =>
      simp only [followup_req]
      by_cases hc : s = "" ∨ (storeGet s store2).isNone
      · rw [if_pos hc]
      · rw [if_neg hc]
  · intro sid2 instr promptOut store2
    cases sid2 with
    | none => rfl
    | some s =>
      simp only [followup_req]
      by_cases hc : s = "" ∨ (storeGet s store2).isNone
      · rw [if_pos hc]
      · rw [if_neg hc]
        cases promptOut <;> rfl

/-- Witness for C10's amended theorem at a concrete store and request. -/
theorem failed_request_frame_witness :
    (analyze_req 0 (some "site") none "f" none [("a", blankSession)]).2 =
      limit_sessions (cleanup_old_sessions 0 [("a", blankSession)]) :=
  ((failed_request_frame 0 (some "site") none "f" [("a", blankSession)]
    (by decide)).1).1

-- ==========================================================
-- Helper lemmas: crawl loop invariants
-- ==========================================================

theorem nodup_append_singleton {α : Type} (l : List α) (a : α)
    (h : l.Nodup) (ha : ¬ a ∈ l) : (l ++ [a]).Nodup := by
  rw [List.nodup_append]
  refine ⟨h, List.nodup_singleton a, ?_⟩
  intro x hx hxa
  rw [List.mem_singleton] at hxa
  exact ha (hxa ▸ hx)

theorem crawlLoop_inv (web : List Char → Option FetchedDoc)
    (ext : List Char → Option (List Char)) (start : List Char)
    (maxPages depth : Nat) :
    ∀ (fuel : Nat) (s : CrawlState),
      s.pages.length ≤ maxPages → s.visited.Nodup →
      (∀ p ∈ s.pages, p.url ∈ s.visited) →
      (s.pages.map Page.url).Nodup →
      ((crawlLoop web ext start maxPages depth fuel s).pages.length ≤
         maxPages ∧
       (crawlLoop web ext start maxPages depth fuel s).visited.Nodup ∧
       (∀ p ∈ (crawlLoop web ext start maxPages depth fuel s).pages,
         p.url ∈ (crawlLoop web ext start maxPages depth fuel s).visited) ∧
       ((crawlLoop web ext start maxPages depth fuel
          s).pages.map Page.url).Nodup) := by
  intro fuel
  induction fuel with
  | zero =>
    intro s h1 h2 h3 h4
    exact ⟨h1, h2, h3, h4⟩
  | succ n ih =>
    intro s h1 h2 h3 h4
    rw [crawlLoop]
    by_cases hstop : s.pages.length ≥ maxPages
    · rw [if_pos hstop]
      exact ⟨h1, h2, h3, h4⟩
    · rw [if_neg hstop]
      rcases hq : s.queue with _ | ⟨⟨url, d⟩, rest⟩
      · exact ⟨h1, h2, h3, h4⟩
      · dsimp only
        by_cases hskip : url ∈ s.visited ∨ d > depth
        · rw [if_pos hskip]
          exact ih ⟨s.visited, rest, s.pages⟩ h1 h2 h3 h4
        · rw [if_neg hskip]
          push_neg at hskip
          obtain ⟨hnv, _⟩ := hskip
          have h2v : (s.visited ++ [url]).Nodup :=
            nodup_append_singleton s.visited url h2 hnv
          have h3v : ∀ p ∈ s.pages, p.url ∈ s.visited ++ [url] :=
            fun p hp => List.mem_append_left _ (h3 p hp)
          rcases hw : web url with _ | doc
          · exact ih ⟨s.visited ++ [url], rest, s.pages⟩ h1 h2v h3v h4
          · dsimp only
            rcases hc : collectLinks ext start url doc.hrefs with e | links
            · exact ih ⟨s.visited ++ [url], rest, s.pages⟩ h1 h2v h3v h4
            · dsimp only
              apply ih
              · rw [List.length_append]
                simp only [List.length_singleton]
                omega
              · exact h2v
              · intro p hp
                rcases List.mem_append.mp hp with hp1 | hp1
                · exact h3v p hp1
                · rw [List.mem_singleton] at hp1
                  subst hp1
                  exact List.mem_append_right _ (List.mem_singleton_self url)
              · rw [List.map_append]
                apply nodup_append_singleton _ _ h4
                intro hcontra
                simp only [List.map_cons, List.map_nil,
                  List.mem_singleton] at hcontra
                obtain ⟨p, hp, hpu⟩ := List.mem_map.mp hcontra
                exact hnv (hpu ▸ h3 p hp)

theorem crawlLoop_reach (web : List Char → Option FetchedDoc)
    (ext : List Char → Option (List Char)) (start : List Char)
    (maxPages depth : Nat) :
    ∀ (fuel : Nat) (s : CrawlState),
      (∀ ud ∈ s.queue, ReachN web ext start ud.2 ud.1) →
      (∀ p ∈ s.pages, ∃ n, n ≤ depth ∧ ReachN web ext start n p.url) →
      ∀ p ∈ (crawlLoop web ext start maxPages depth fuel s).pages,
        ∃ n, n ≤ depth ∧ ReachN web ext start n p.url := by
  intro fuel
  induction fuel with
  | zero => intro s _ hp; exact hp
  | succ n ih =>
    intro s hque hpages
    rw [crawlLoop]
    by_cases hstop : s.pages.length ≥ maxPages
    · rw [if_pos hstop]; exact hpages
    · rw [if_neg hstop]
      rcases hq : s.queue with _ | ⟨⟨url, d⟩, rest⟩
      · exact hpages
      · dsimp only
        have hqrest : ∀ ud ∈ rest, ReachN web ext start ud.2 ud.1 :=
          fun ud hud => hque ud (by rw [hq]; exact List.mem_cons_of_mem _ hud)
        have hqhead : ReachN web ext start d url :=
          hque (url, d) (by rw [hq]; exact List.mem_cons_self _ _)
        by_cases hskip : url ∈ s.visited ∨ d > depth
        · rw [if_pos hskip]
          exact ih ⟨s.visited, rest, s.pages⟩ hqrest hpages
        · rw [if_neg hskip]
          push_neg at hskip
          obtain ⟨_, hd⟩ := hskip
          rcases hw : web url with _ | doc
          · exact ih ⟨s.visited ++ [url], rest, s.pages⟩ hqrest hpages
          · dsimp only
            rcases hc : collectLinks ext start url doc.hrefs with e | links
            · exact ih ⟨s.visited ++ [url], rest, s.pages⟩ hqrest hpages
            · dsimp only
              apply ih
              · intro ud hud
                rcases List.mem_append.mp hud with hud1 | hud1
                · exact hqrest ud hud1
                · obtain ⟨l, hl, hleq⟩ := List.mem_map.mp hud1
                  subst hleq
                  exact ReachN.step hqhead hw hc (List.mem_of_mem_filter hl)
              · intro p hp
                rcases List.mem_append.mp hp with hp1 | hp1
                · exact hpages p hp1
                · rw [List.mem_singleton] at hp1
                  subst hp1
                  exact ⟨d, hd, hqhead⟩

theorem crawlLoop_empty_queue (web : List Char → Option FetchedDoc)
    (ext : List Char → Option (List Char)) (start : List Char)
    (maxPages depth : Nat) (fuel : Nat) (s : CrawlState)
    (h : s.queue = []) :
    crawlLoop web ext start maxPages depth fuel s = s := by
  cases fuel with
  | zero => rfl
  | succ n =>
    rw [crawlLoop]
    by_cases hs : s.pages.length ≥ maxPages
    · rw [if_pos hs]
    · rw [if_neg hs, h]

-- ==========================================================
-- C1: crawl bounds
-- ==========================================================

/-- C1: for every web oracle, domain extraction, start URL, page bound,
depth bound and fuel, `crawl_site` returns a result with at most
`max_pages` pages, with pairwise-distinct page URLs, whose `count` equals
the number of pages; moreover the fetch log (the `visited` set in insertion
order — one entry per `requests.get` attempt) contains no duplicates, so no
URL is fetched twice. -/
theorem crawl_site_bounds (web : List Char → Option FetchedDoc)
    (ext : List Char → Option (List Char)) (start : List Char)
    (maxPages depth fuel : Nat) :
    (crawl_site web ext start maxPages depth fuel).pages.length ≤ maxPages ∧
    (crawl_site web ext start maxPages depth fuel).count =
      (crawl_site web ext start maxPages depth fuel).pages.length ∧
    ((crawl_site web ext start maxPages depth fuel).pages.map
      Page.url).Nodup ∧
    (crawl_site_state web ext start maxPages depth fuel).visited.Nodup := by
  have h := crawlLoop_inv web ext start maxPages depth fuel
    ⟨[], [(start, 0)], []⟩ (Nat.zero_le _) List.nodup_nil
    (fun p hp => absurd hp (List.not_mem_nil p)) List.nodup_nil
  exact ⟨h.1, rfl, h.2.2.2, h.2.1⟩

-- ==========================================================
-- C4: depth bound via reachability
-- ==========================================================

/-- C4: every page in the crawl result is reachable from the start URL in
at most `max_depth` hops along kept links (normalized, truthy, same-domain
links of successfully fetched pages); equivalently, no page reachable only
via longer paths ever appears.  Children are enqueued at `depth+1`
unconditionally and filtered at dequeue time, as in the source. -/
theorem crawl_site_depth_bound (web : List Char → Option FetchedDoc)
    (ext : List Char → Option (List Char)) (start : List Char)
    (maxPages depth fuel : Nat) :
    ∀ p ∈ (crawl_site web ext start maxPages depth fuel).pages,
      ∃ n, n ≤ depth ∧ ReachN web ext start n p.url := by
  intro p hp
  refine crawlLoop_reach web ext start maxPages depth fuel
    ⟨[], [(start, 0)], []⟩ ?_ ?_ p hp
  · intro ud hud
    rw [List.mem_singleton] at hud
    subst hud
    exact ReachN.start
  · intro q hq
    exact absurd hq (List.not_mem_nil q)

/-- Witness for C4: a one-page website crawled with depth 1. -/
theorem crawl_site_depth_bound_witness :
    ∃ n, n ≤ 1 ∧ ReachN webOne extNone ['a'] n
      (Page.mk ['a'] [] [] [] []).url :=
  crawl_site_depth_bound webOne extNone ['a'] 25 1 5
    (Page.mk ['a'] [] [] [] []) (by decide)

-- ==========================================================
-- C8: per-page failure containment
-- ==========================================================

/-- C8: per-page fetch failures never escape `crawl_site` (the whole loop
body is wrapped in `try`/`except`, modelled by the total oracle); in
particular when the start URL's own fetch fails the crawler returns a
normal `CrawlResult` with an empty page list and `count = 0` for every
bound and fuel value. -/
theorem crawlLoop_step_fail (web : List Char → Option FetchedDoc)
    (ext : List Char → Option (List Char)) (start : List Char)
    (maxPages depth n : Nat) (url : List Char) (d : Nat)
    (rest : List (List Char × Nat)) (visited : List (List Char))
    (pages : List Page) (hlen : ¬ pages.length ≥ maxPages)
    (hskip : ¬ (url ∈ visited ∨ d > depth)) (hw : web url = none) :
    crawlLoop web ext start maxPages depth (n + 1)
      ⟨visited, (url, d) :: rest, pages⟩ =
    crawlLoop web ext start maxPages depth n
      ⟨visited ++ [url], rest, pages⟩ := by
  rw [crawlLoop, if_neg hlen]
  dsimp only
  rw [if_neg hskip, hw]

theorem crawl_site_start_failure (web : List Char → Option FetchedDoc)
    (ext : List Char → Option (List Char)) (start : List Char)
    (maxPages depth fuel : Nat) (h : web start = none) :
    crawl_site web ext start maxPages depth fuel =
      ⟨start, [], 0⟩ := by
  cases fuel with
  | zero => rfl
  | succ n =>
    rcases Nat.eq_zero_or_pos maxPages with hm | hm
    · subst hm
      rfl
    · obtain ⟨m, rfl⟩ : ∃ m, maxPages = m + 1 := ⟨maxPages - 1, by omega⟩
      unfold crawl_site crawl_site_state
      rw [crawlLoop_step_fail web ext start (m + 1) depth n start 0 [] [] []
        (by simp) (by simp) h]
      rw [crawlLoop_empty_queue web ext start (m + 1) depth n
        ⟨[] ++ [start], [], []⟩ rfl]
      rfl

/-- Witness for C8: a web on which every fetch fails. -/
theorem crawl_site_start_failure_witness :
    crawl_site webNone extNone ['a'] 25 1 3 = ⟨['a'], [], 0⟩ :=
  crawl_site_start_failure webNone extNone ['a'] 25 1 3 rfl

-- ==========================================================
-- Helper lemmas: hash-freeness and substring inclusion
-- ==========================================================

theorem hash_not_mem_beforeHash (l : List Char) : ¬ '#' ∈ beforeHash l := by
  intro h
  have := List.mem_takeWhile_imp h
  simp at this

theorem removeUnsafe_subset (l : List Char) : removeUnsafeBytes l ⊆ l :=
  List.filter_subset' l

theorem afterLastSlash_subset (l : List Char) : afterLastSlash l ⊆ l := by
  intro x hx
  unfold afterLastSlash at hx
  rw [List.mem_reverse] at hx
  have := (List.takeWhile_sublist _).subset hx
  rwa [List.mem_reverse] at this

theorem splitParamsPair_subset (l : List Char) :
    (splitParamsPair l).1 ⊆ l ∧ (splitParamsPair l).2 ⊆ l := by
  unfold splitParamsPair
  by_cases hs : '/' ∈ l
  · rw [if_pos hs]
    by_cases hsemi : ';' ∈ afterLastSlash l
    · rw [if_pos hsemi]
      constructor
      · intro x hx
        rcases List.mem_append.mp hx with h1 | h1
        · exact (List.take_sublist _ _).subset h1
        · exact afterLastSlash_subset l
            ((List.takeWhile_sublist _).subset h1)
      · intro x hx
        exact afterLastSlash_subset l
          ((List.dropWhile_sublist _).subset
            ((List.drop_sublist _ _).subset hx))
    · rw [if_neg hsemi]
      exact ⟨fun x hx => hx, List.nil_subset l⟩
  · rw [if_neg hs]
    constructor
    · exact (List.takeWhile_sublist _).subset
    · intro x hx
      exact (List.dropWhile_sublist _).subset
        ((List.drop_sublist _ _).subset hx)

theorem netlocSplit_fst_no_hash (rest : List Char) :
    ¬ '#' ∈ (netlocSplit rest).1 := by
  unfold netlocSplit
  by_cases h : rest.take 2 = ['/', '/']
  · rw [if_pos h]
    intro hc
    have := List.mem_takeWhile_imp hc
    simp at this
  · rw [if_neg h]
    exact List.not_mem_nil '#'

theorem urlsplitE_no_hash (url ds : List Char) (S : SplitUrl)
    (h : urlsplitE url ds = .ok S) :
    ¬ '#' ∈ S.netloc ∧ ¬ '#' ∈ S.path ∧ ¬ '#' ∈ S.query := by
  unfold urlsplitE at h
  by_cases hok : netlocOk (netlocSplit (schemeSplit (removeUnsafeBytes url)
      (removeUnsafeBytes ds)).2).1
  · rw [if_pos hok] at h
    injection h with h
    subst h
    refine ⟨netlocSplit_fst_no_hash _, ?_, ?_⟩
    · intro hc
      have h1 := (List.takeWhile_sublist
        (fun c => decide (c ≠ '?'))).subset hc
      have := List.mem_takeWhile_imp h1
      simp at this
    · intro hc
      have h1 := (List.dropWhile_sublist (fun c => decide (c ≠ '?'))).subset
        ((List.drop_sublist _ _).subset hc)
      have := List.mem_takeWhile_imp h1
      simp at this
  · rw [if_neg hok] at h
    exact absurd h (by simp)

theorem urlparseE_no_hash (url ds : List Char) (P : ParseUrl)
    (h : urlparseE url ds = .ok P) :
    ¬ '#' ∈ P.netloc ∧ ¬ '#' ∈ P.path ∧ ¬ '#' ∈ P.params ∧
    ¬ '#' ∈ P.query := by
  unfold urlparseE at h
  rcases hs : urlsplitE url ds with e | S
  · rw [hs] at h
    exact absurd h (by simp [Except.map])
  · rw [hs] at h
    simp only [Except.map] at h
    injection h with h
    subst h
    obtain ⟨hn, hp, hq⟩ := urlsplitE_no_hash url ds S hs
    unfold paramStage
    by_cases hc : S.scheme ∈ pyUsesParams ∧ ';' ∈ S.path
    · rw [if_pos hc]
      obtain ⟨h1, h2⟩ := splitParamsPair_subset S.path
      exact ⟨hn, fun hx => hp (h1 hx), fun hx => hp (h2 hx), hq⟩
    · rw [if_neg hc]
      exact ⟨hn, hp, List.not_mem_nil '#', hq⟩

-- ==========================================================
-- C5: when normalize_link yields "no link"
-- ==========================================================

/-- C5 counterexample: a whitespace-only reference is truthy in Python, so
it passes the `not href` guard, strips to the empty string, matches no
excluded prefix and is resolved by `urljoin(base, "")`, which returns the
base URL — not the claimed "no link". -/
theorem normalize_link_ws_cex :
    normalize_link ("http://a.com/x".toList) (some [' ', ' ']) =
      .ok (some ("http://a.com/x".toList)) ∧
    ¬ normalize_link ("http://a.com/x".toList) (some [' ', ' ']) =
      .ok none := by
  have h1 : normalize_link ("http://a.com/x".toList) (some [' ', ' ']) =
      .ok (some ("http://a.com/x".toList)) := rfl
  refine ⟨h1, fun hc => ?_⟩
  rw [h1] at hc
  exact Option.noConfusion (Except.ok.inj hc)

/-- C5 amended: `normalize_link` returns "no link" (`None`) iff the
reference is absent or not a string, is the empty string (checked before
stripping), or after stripping begins with one of the nine excluded
prefixes.  In particular a whitespace-only reference does not yield "no
link": it resolves against the base.  (On some malformed references the
`urljoin` call can propagate a `ValueError` — an error outcome distinct
from returning `None`.) -/
theorem normalize_link_none_iff (base : List Char)
    (href : Option (List Char)) :
    normalize_link base href = .ok none ↔
      href = none ∨ href = some [] ∨
      ∃ hh, href = some hh ∧
        badSchemes.any (fun p => listStartsWith (pyStrip hh) p) = true := by
  cases href with
  | none => simp [normalize_link]
  | some h2 =>
    simp only [normalize_link]
    by_cases he : h2 = []
    · subst he
      simp
    · rw [if_neg he]
      by_cases hbad :
          badSchemes.any (fun p => listStartsWith (pyStrip h2) p) = true
      · rw [if_pos hbad]
        exact ⟨fun _ => Or.inr (Or.inr ⟨h2, rfl, hbad⟩), fun _ => rfl⟩
      · rw [if_neg hbad]
        have hrhs : (some h2 = none ∨ some h2 = some [] ∨
            ∃ hh, some h2 = some hh ∧
              badSchemes.any (fun p => listStartsWith (pyStrip hh) p) =
                true) ↔ False := by
          constructor
          · rintro (h | h | ⟨hh, heq, hb⟩)
            · exact Option.noConfusion h
            · exact he (Option.some.inj h)
            · injection heq with heq
              exact hbad (by rw [heq]; exact hb)
          · exact False.elim
        rw [hrhs, iff_false]
        intro hL
        split at hL
        · simp at hL
        · split at hL
          · simp at hL
          · rcases hu : urljoinE base (beforeHash (pyStrip h2)) with e | r <;>
              rw [hu] at hL <;> simp [Except.map] at hL

-- ==========================================================
-- Helper lemmas: merge-path membership and urlunsplit shape
-- ==========================================================

theorem listStartsWith_append (pre t : List Char) :
    listStartsWith (pre ++ t) pre = true := by
  unfold listStartsWith
  rw [List.take_left]
  simp

theorem pySplit_mem (sep : Char) :
    ∀ (l : List Char), ∀ p ∈ pySplit sep l, ∀ c ∈ p, c ∈ l := by
  intro l
  induction l with
  | nil =>
    intro p hp c hc
    simp [pySplit] at hp
    subst hp
    simp at hc
  | cons c0 rest ih =>
    intro p hp c hc
    simp only [pySplit] at hp
    by_cases hc0 : c0 = sep
    · rw [if_pos hc0] at hp
      rcases List.mem_cons.mp hp with h1 | h1
      · subst h1
        simp at hc
      · exact List.mem_cons_of_mem _ (ih p h1 c hc)
    · rw [if_neg hc0] at hp
      rcases List.mem_cons.mp hp with h1 | h1
      · subst h1
        rcases List.mem_cons.mp hc with h2 | h2
        · subst h2
          exact List.mem_cons_self _ _
        · rcases hps : pySplit sep rest with _ | ⟨h, t⟩
          · rw [hps] at h2
            simp at h2
          · rw [hps] at h2
            have hmem : h ∈ pySplit sep rest := by
              rw [hps]
              exact List.mem_cons_self _ _
            exact List.mem_cons_of_mem _ (ih h hmem c h2)
      · have hmem : p ∈ pySplit sep rest :=
          (List.tail_sublist _).subset h1
        exact List.mem_cons_of_mem _ (ih p hmem c hc)

theorem keepLastFilter_mem :
    ∀ (l : List (List Char)) (p : List Char),
      p ∈ keepLastFilter l → p ∈ l := by
  intro l
  induction l with
  | nil => intro p hp; exact hp
  | cons y ys ih =>
    intro p hp
    cases ys with
    | nil => exact hp
    | cons z zs =>
      simp only [keepLastFilter] at hp
      by_cases hy : y = []
      · rw [if_pos hy] at hp
        exact List.mem_cons_of_mem _ (ih p hp)
      · rw [if_neg hy] at hp
        rcases List.mem_cons.mp hp with h1 | h1
        · subst h1
          exact List.mem_cons_self _ _
        · exact List.mem_cons_of_mem _ (ih p h1)

theorem filterMiddle_mem (l : List (List Char)) (p : List Char)
    (hp : p ∈ filterMiddle l) : p ∈ l := by
  cases l with
  | nil => exact hp
  | cons x xs =>
    simp only [filterMiddle] at hp
    rcases List.mem_cons.mp hp with h1 | h1
    · subst h1
      exact List.mem_cons_self _ _
    · exact List.mem_cons_of_mem _ (keepLastFilter_mem xs p h1)

theorem resolveSegs_mem :
    ∀ (segs acc : List (List Char)) (p : List Char),
      p ∈ resolveSegs acc segs → p ∈ acc ∨ p ∈ segs := by
  intro segs
  induction segs with
  | nil => intro acc p hp; exact Or.inl hp
  | cons s rest ih =>
    intro acc p hp
    simp only [resolveSegs] at hp
    by_cases h1 : s = ['.', '.']
    · rw [if_pos h1] at hp
      rcases ih acc.dropLast p hp with h | h
      · exact Or.inl ((List.dropLast_sublist acc).subset h)
      · exact Or.inr (List.mem_cons_of_mem _ h)
    · rw [if_neg h1] at hp
      by_cases h2 : s = ['.']
      · rw [if_pos h2] at hp
        rcases ih acc p hp with h | h
        · exact Or.inl h
        · exact Or.inr (List.mem_cons_of_mem _ h)
      · rw [if_neg h2] at hp
        rcases ih (acc ++ [s]) p hp with h | h
        · rcases List.mem_append.mp h with h3 | h3
          · exact Or.inl h3
          · rw [List.mem_singleton] at h3
            subst h3
            exact Or.inr (List.mem_cons_self _ _)
        · exact Or.inr (List.mem_cons_of_mem _ h)

theorem pyJoin_mem (sep : Char) :
    ∀ (ps : List (List Char)) (c : Char), c ∈ pyJoin sep ps →
      c = sep ∨ ∃ p, p ∈ ps ∧ c ∈ p := by
  intro ps
  induction ps with
  | nil => intro c hc; simp [pyJoin] at hc
  | cons p rest ih =>
    intro c hc
    cases rest with
    | nil => exact Or.inr ⟨p, List.mem_cons_self _ _, hc⟩
    | cons q qs =>
      simp only [pyJoin] at hc
      rcases List.mem_append.mp hc with h | h
      · exact Or.inr ⟨p, List.mem_cons_self _ _, h⟩
      · rcases List.mem_cons.mp h with h | h
        · exact Or.inl h
        · rcases ih c h with h | ⟨r, hr, hcr⟩
          · exact Or.inl h
          · exact Or.inr ⟨r, List.mem_cons_of_mem _ hr, hcr⟩

theorem segsOf_mem (bpath upath : List Char) (p : List Char)
    (hp : p ∈ segsOf bpath upath) : ∀ c ∈ p, c ∈ bpath ∨ c ∈ upath := by
  intro c hc
  unfold segsOf at hp
  split at hp
  · exact Or.inr (pySplit_mem '/' upath p hp c hc)
  · have hp2 := filterMiddle_mem _ p hp
    rcases List.mem_append.mp hp2 with h | h
    · have hp3 : p ∈ pySplit '/' bpath := by
        split at h
        · exact (List.dropLast_sublist _).subset h
        · exact h
      exact Or.inl (pySplit_mem '/' bpath p hp3 c hc)
    · exact Or.inr (pySplit_mem '/' upath p h c hc)

theorem joinSegs_no_hash (segs : List (List Char))
    (hsegs : ∀ p ∈ segs, ¬ '#' ∈ p) : ¬ '#' ∈ joinSegs segs := by
  intro hc
  simp only [joinSegs] at hc
  have key : ∀ res : List (List Char), (∀ p ∈ res, ¬ '#' ∈ p) →
      ¬ '#' ∈ (if pyJoin '/' res = [] then ['/'] else pyJoin '/' res) := by
    intro res hres hc2
    split at hc2
    · simp at hc2
    · rcases pyJoin_mem '/' res '#' hc2 with h | ⟨p, hp, hcp⟩
      · simp at h
      · exact hres p hp hcp
  have hres0 : ∀ p ∈ resolveSegs [] segs, ¬ '#' ∈ p := by
    intro p hp hcp
    rcases resolveSegs_mem segs [] p hp with h3 | h3
    · simp at h3
    · exact hsegs p h3 hcp
  by_cases hlast : segs.getLastD [] = ['.'] ∨ segs.getLastD [] = ['.', '.']
  · rw [if_pos hlast] at hc
    refine key (resolveSegs [] segs ++ [[]]) ?_ hc
    intro p hp hcp
    rcases List.mem_append.mp hp with h | h
    · exact hres0 p h hcp
    · rw [List.mem_singleton] at h
      subst h
      simp at hcp
  · rw [if_neg hlast] at hc
    exact key (resolveSegs [] segs) hres0 hc

theorem mergePath_no_hash (bpath upath : List Char)
    (hb : ¬ '#' ∈ bpath) (hu : ¬ '#' ∈ upath) :
    ¬ '#' ∈ mergePath bpath upath := by
  unfold mergePath
  apply joinSegs_no_hash
  intro p hp hc
  rcases segsOf_mem bpath upath p hp '#' hc with h | h
  · exact hb h
  · exact hu h

theorem urlunsplit_abs (scheme netloc path query : List Char)
    (hs : scheme = "http".toList ∨ scheme = "https".toList)
    (hn : ¬ netloc = []) (hnh : ¬ '#' ∈ netloc) (hph : ¬ '#' ∈ path)
    (hqh : ¬ '#' ∈ query) :
    (listStartsWith (urlunsplitL scheme netloc path query [])
       ("http://".toList) = true ∨
     listStartsWith (urlunsplitL scheme netloc path query [])
       ("https://".toList) = true) ∧
    ¬ '#' ∈ urlunsplitL scheme netloc path query [] := by
  have hsne : ¬ scheme = [] := by
    rcases hs with h | h <;> rw [h] <;> decide
  have hu0 : ¬ '#' ∈
      (if path ≠ [] ∧ path.take 1 ≠ ['/'] then '/' :: path else path) := by
    split
    · intro hc
      rcases List.mem_cons.mp hc with h | h
      · simp at h
      · exact hph h
    · exact hph
  simp only [urlunsplitL]
  rw [if_pos (Or.inl hn), if_pos hsne,
    if_neg (show ¬ (([] : List Char) ≠ []) by simp)]
  constructor
  · rcases hs with h | h <;> subst h
    · left
      by_cases hq : query ≠ []
      · rw [if_pos hq]
        rw [show ("http".toList) ++ ':' :: '/' :: '/' ::
          (netloc ++ (if path ≠ [] ∧ path.take 1 ≠ ['/'] then '/' :: path
            else path)) = ("http://".toList) ++ (netloc ++
          (if path ≠ [] ∧ path.take 1 ≠ ['/'] then '/' :: path else path))
          from rfl]
        rw [List.append_assoc]
        exact listStartsWith_append _ _
      · rw [if_neg hq]
        rw [show ("http".toList) ++ ':' :: '/' :: '/' ::
          (netloc ++ (if path ≠ [] ∧ path.take 1 ≠ ['/'] then '/' :: path
            else path)) = ("http://".toList) ++ (netloc ++
          (if path ≠ [] ∧ path.take 1 ≠ ['/'] then '/' :: path else path))
          from rfl]
        exact listStartsWith_append _ _
    · right
      by_cases hq : query ≠ []
      · rw [if_pos hq]
        rw [show ("https".toList) ++ ':' :: '/' :: '/' ::
          (netloc ++ (if path ≠ [] ∧ path.take 1 ≠ ['/'] then '/' :: path
            else path)) = ("https://".toList) ++ (netloc ++
          (if path ≠ [] ∧ path.take 1 ≠ ['/'] then '/' :: path else path))
          from rfl]
        rw [List.append_assoc]
        exact listStartsWith_append _ _
      · rw [if_neg hq]
        rw [show ("https".toList) ++ ':' :: '/' :: '/' ::
          (netloc ++ (if path ≠ [] ∧ path.take 1 ≠ ['/'] then '/' :: path
            else path)) = ("https://".toList) ++ (netloc ++
          (if path ≠ [] ∧ path.take 1 ≠ ['/'] then '/' :: path else path))
          from rfl]
        exact listStartsWith_append _ _
  · have hbody : ¬ '#' ∈ scheme ++ ':' :: '/' :: '/' ::
        (netloc ++ (if path ≠ [] ∧ path.take 1 ≠ ['/'] then '/' :: path
          else path)) := by
      intro hc
      rcases List.mem_append.mp hc with h | h
      · rcases hs with hsc | hsc <;> rw [hsc] at h <;>
          exact absurd h (by decide)
      · rcases List.mem_cons.mp h with h | h
        · simp at h
        · rcases List.mem_cons.mp h with h | h
          · simp at h
          · rcases List.mem_cons.mp h with h | h
            · simp at h
            · rcases List.mem_append.mp h with h | h
              · exact hnh h
              · exact hu0 h
    by_cases hq : query ≠ []
    · rw [if_pos hq]
      intro hc
      rcases List.mem_append.mp hc with h | h
      · exact hbody h
      · rcases List.mem_cons.mp h with h | h
        · simp at h
        · exact hqh h
    · rw [if_neg hq]
      exact hbody

theorem urlunparse_abs (scheme netloc path params query : List Char)
    (hs : scheme = "http".toList ∨ scheme = "https".toList)
    (hn : ¬ netloc = []) (hnh : ¬ '#' ∈ netloc) (hph : ¬ '#' ∈ path)
    (hprh : ¬ '#' ∈ params) (hqh : ¬ '#' ∈ query) :
    (listStartsWith (urlunparseL scheme netloc path params query [])
       ("http://".toList) = true ∨
     listStartsWith (urlunparseL scheme netloc path params query [])
       ("https://".toList) = true) ∧
    ¬ '#' ∈ urlunparseL scheme netloc path params query [] := by
  have hp2 : ¬ '#' ∈
      (if params ≠ [] then path ++ ';' :: params else path) := by
    split
    · intro hc
      rcases List.mem_append.mp hc with h | h
      · exact hph h
      · rcases List.mem_cons.mp h with h | h
        · simp at h
        · exact hprh h
    · exact hph
  simp only [urlunparseL]
  exact urlunsplit_abs scheme netloc _ query hs hn hnh hp2 hqh

-- ==========================================================
-- Helper lemmas: parsing a schemeless reference
-- ==========================================================

theorem paramStage_scheme (s : SplitUrl) :
    (paramStage s).scheme = s.scheme := by
  unfold paramStage
  split <;> rfl

theorem paramStage_netloc (s : SplitUrl) :
    (paramStage s).netloc = s.netloc := by
  unfold paramStage
  split <;> rfl

theorem paramStage_fragment (s : SplitUrl) :
    (paramStage s).fragment = s.fragment := by
  unfold paramStage
  split <;> rfl

theorem urlparse_schemeless (url ds : List Char)
    (hds : removeUnsafeBytes ds = ds)
    (hns : detectScheme (removeUnsafeBytes url) = none)
    (hnn : ¬ (removeUnsafeBytes url).take 2 = ['/', '/'])
    (hnh : ¬ '#' ∈ url) :
    ∃ P : ParseUrl, urlparseE url ds = .ok P ∧ P.scheme = ds ∧
      P.netloc = [] ∧ P.fragment = [] := by
  have hsr : schemeSplit (removeUnsafeBytes url) (removeUnsafeBytes ds) =
      (ds, removeUnsafeBytes url) := by
    simp only [schemeSplit, hns]
    rw [hds]
  have hnl : netlocSplit (removeUnsafeBytes url) =
      ([], removeUnsafeBytes url) := by
    unfold netlocSplit
    rw [if_neg hnn]
  have hfrg : (removeUnsafeBytes url).dropWhile
      (fun c => decide (c ≠ '#')) = [] := by
    rw [List.dropWhile_eq_nil_iff]
    intro x hx
    simp only [decide_eq_true_eq]
    intro heq
    exact hnh (removeUnsafe_subset url (heq ▸ hx))
  have hfrag2 : (splitFirst '#' (removeUnsafeBytes url)).2 = [] := by
    unfold splitFirst
    rw [hfrg]
    rfl
  have hsplit : urlsplitE url ds = .ok
      ⟨ds, [],
       (splitFirst '?' (splitFirst '#' (removeUnsafeBytes url)).1).1,
       (splitFirst '?' (splitFirst '#' (removeUnsafeBytes url)).1).2,
       []⟩ := by
    simp only [urlsplitE, hsr, hnl]
    rw [if_pos (show netlocOk [] = true by decide)]
    rw [hfrag2]
  refine ⟨paramStage ⟨ds, [],
    (splitFirst '?' (splitFirst '#' (removeUnsafeBytes url)).1).1,
    (splitFirst '?' (splitFirst '#' (removeUnsafeBytes url)).1).2, []⟩,
    ?_, ?_, ?_, ?_⟩
  · unfold urlparseE
    rw [hsplit]
    rfl
  · rw [paramStage_scheme]
  · rw [paramStage_netloc]
  · rw [paramStage_fragment]

-- ==========================================================
-- Helper lemma: urljoin on a schemeless relative reference
-- ==========================================================

theorem urljoin_schemeless_abs (base u : List Char) (B : ParseUrl)
    (hB : urlparseE base [] = .ok B)
    (hBs : B.scheme = "http".toList ∨ B.scheme = "https".toList)
    (hBn : ¬ B.netloc = [])
    (hns : detectScheme (removeUnsafeBytes u) = none)
    (hnn : ¬ (removeUnsafeBytes u).take 2 = ['/', '/'])
    (hnh : ¬ '#' ∈ u) (hune : ¬ u = []) :
    ∃ r, urljoinE base u = .ok r ∧
      (listStartsWith r ("http://".toList) = true ∨
       listStartsWith r ("https://".toList) = true) ∧ ¬ '#' ∈ r := by
  have hbne : ¬ base = [] := by
    intro hb
    subst hb
    have hblank : urlparseE [] [] = .ok ⟨[], [], [], [], [], []⟩ := rfl
    rw [hblank] at hB
    injection hB with hB
    rw [← hB] at hBn
    exact hBn rfl
  have hds : removeUnsafeBytes B.scheme = B.scheme := by
    rcases hBs with h | h <;> rw [h] <;> rfl
  obtain ⟨U, hU, hUs, hUn, hUf⟩ :=
    urlparse_schemeless u B.scheme hds hns hnn hnh
  obtain ⟨hBnh, hBph, hBprh, hBqh⟩ := urlparseE_no_hash base [] B hB
  obtain ⟨_, hUph, hUprh, hUqh⟩ := urlparseE_no_hash u B.scheme U hU
  have hrel : U.scheme ∈ pyUsesRelative := by
    rw [hUs]
    rcases hBs with h | h <;> rw [h] <;> decide
  have hnetmem : U.scheme ∈ pyUsesNetloc := by
    rw [hUs]
    rcases hBs with h | h <;> rw [h] <;> decide
  refine ⟨urljoinCore B U u, ?_, ?_⟩
  · unfold urljoinE
    rw [if_neg hbne, if_neg hune, hB]
    simp only [Except.bind]
    rw [hU]
    rfl
  · unfold urljoinCore
    rw [if_neg (by push_neg; exact ⟨hUs, hrel⟩)]
    rw [if_neg (by simp [hUn])]
    dsimp only
    rw [if_pos hnetmem, hUf]
    by_cases hpp : U.path = [] ∧ U.params = []
    · rw [if_pos hpp]
      have hq2 : ¬ '#' ∈ (if U.query = [] then B.query else U.query) := by
        split
        · exact hBqh
        · exact hUqh
      exact urlunparse_abs U.scheme B.netloc B.path B.params _
        (by rw [hUs]; exact hBs) hBn hBnh hBph hBprh hq2
    · rw [if_neg hpp]
      exact urlunparse_abs U.scheme B.netloc (mergePath B.path U.path)
        U.params U.query (by rw [hUs]; exact hBs) hBn hBnh
        (mergePath_no_hash B.path U.path hBph hUph) hUprh hUqh

-- ==========================================================
-- C6: normalized relative references are absolute and fragment-free
-- ==========================================================

/-- C6 counterexample: the reference `ftp://h/p` is not rejected, is not a
bare fragment and is not "already absolute" in the spec's sense (an
`http://` or `https://` prefix), yet `normalize_link` returns it unchanged
via `urljoin` — an output with neither an `http://` nor an `https://`
prefix, contradicting the claim. -/
theorem normalize_link_scheme_cex :
    normalize_link ("http://a.com/x".toList) (some ("ftp://h/p".toList)) =
      .ok (some ("ftp://h/p".toList)) ∧
    pyStrip ("ftp://h/p".toList) = "ftp://h/p".toList ∧
    badSchemes.any
      (fun p => listStartsWith ("ftp://h/p".toList) p) = false ∧
    listStartsWith ("ftp://h/p".toList) ("http://".toList) = false ∧
    listStartsWith ("ftp://h/p".toList) ("https://".toList) = false := by
  exact ⟨rfl, by decide, by decide, by decide, by decide⟩

/-- C6 amended: for every base URL that parses (CPython `urlparse`) to an
`http` or `https` scheme with a non-empty network location, and every
reference that is not rejected, not already `http(s)`-absolute, and either
protocol-relative or carries no scheme of its own (and, after CPython's
tab/CR/LF removal, no `//` authority prefix and a non-empty remainder),
`normalize_link` returns an absolute URL with an `http://` or `https://`
prefix and no `#` fragment.  References carrying another scheme (`ftp:`,
`data:`, …) are returned as-is by `urljoin` and are excluded — that is the
only weakening the counterexample forces. -/
theorem normalize_link_resolved_absolute (base h2 : List Char)
    (B : ParseUrl)
    (hB : urlparseE base [] = .ok B)
    (hBs : B.scheme = "http".toList ∨ B.scheme = "https".toList)
    (hBn : ¬ B.netloc = [])
    (hne : ¬ h2 = [])
    (hbad : badSchemes.any (fun p => listStartsWith (pyStrip h2) p) = false)
    (habs1 : listStartsWith (pyStrip h2) ("http://".toList) = false)
    (habs2 : listStartsWith (pyStrip h2) ("https://".toList) = false)
    (hcase : listStartsWith (pyStrip h2) ("//".toList) = true ∨
      (detectScheme (removeUnsafeBytes (beforeHash (pyStrip h2))) = none ∧
       ¬ (removeUnsafeBytes (beforeHash (pyStrip h2))).take 2 =
           ['/', '/'] ∧
       ¬ beforeHash (pyStrip h2) = [])) :
    ∃ r, normalize_link base (some h2) = .ok (some r) ∧
      (listStartsWith r ("http://".toList) = true ∨
       listStartsWith r ("https://".toList) = true) ∧ ¬ '#' ∈ r := by
  simp only [normalize_link]
  rw [if_neg hne]
  rw [if_neg (show ¬ (badSchemes.any
    (fun p => listStartsWith (pyStrip h2) p) = true) from
    fun h => Bool.false_ne_true (hbad.symm.trans h))]
  rw [if_neg (show ¬ (listStartsWith (pyStrip h2) ("http://".toList) =
      true ∨ listStartsWith (pyStrip h2) ("https://".toList) = true) from by
    rintro (h | h)
    · exact Bool.false_ne_true (habs1.symm.trans h)
    · exact Bool.false_ne_true (habs2.symm.trans h))]
  by_cases hpr : listStartsWith (pyStrip h2) ("//".toList) = true
  · rw [if_pos hpr]
    refine ⟨_, rfl, ?_, ?_⟩
    · right
      have htake : (pyStrip h2).take 2 = "//".toList := by
        have := of_decide_eq_true hpr
        exact this
      have h3 : pyStrip h2 = "//".toList ++ (pyStrip h2).drop 2 := by
        conv_lhs => rw [← List.take_append_drop 2 (pyStrip h2)]
        rw [htake]
      have hbh : beforeHash (pyStrip h2) =
          '/' :: '/' :: beforeHash ((pyStrip h2).drop 2) := by
        rw [h3]
        rfl
      rw [hbh]
      rw [show ("https:".toList) ++ '/' :: '/' ::
        beforeHash ((pyStrip h2).drop 2) = ("https://".toList) ++
        beforeHash ((pyStrip h2).drop 2) from rfl]
      exact listStartsWith_append _ _
    · intro hc
      rcases List.mem_append.mp hc with h | h
      · exact absurd h (by decide)
      · exact hash_not_mem_beforeHash _ h
  · rcases hcase with hc1 | ⟨hns, hnn, hune⟩
    · exact absurd hc1 hpr
    · rw [if_neg hpr]
      obtain ⟨r, hrj, hpre, hhash⟩ := urljoin_schemeless_abs base
        (beforeHash (pyStrip h2)) B hB hBs hBn hns hnn
        (hash_not_mem_beforeHash _) hune
      refine ⟨r, ?_, hpre, hhash⟩
      rw [hrj]
      rfl

/-- Witness for C6's amended theorem: resolving `c/d?x=1` against
`http://example.com/a/b`. -/
theorem normalize_link_resolved_absolute_witness :
    ∃ r, normalize_link ("http://example.com/a/b".toList)
        (some ("c/d?x=1".toList)) = .ok (some r) ∧
      (listStartsWith r ("http://".toList) = true ∨
       listStartsWith r ("https://".toList) = true) ∧ ¬ '#' ∈ r :=
  normalize_link_resolved_absolute ("http://example.com/a/b".toList)
    ("c/d?x=1".toList)
    ⟨"http".toList, "example.com".toList, "/a/b".toList, [], [], []⟩
    rfl (Or.inl rfl) (by decide) (by decide) rfl rfl rfl
    (Or.inr ⟨rfl, by decide, by decide⟩)
